import Mathlib

/-
  A verification development for the `virtuals` plugin of the bookshelf
  model layer (`lib/plugins/virtuals.js`).

  The plugin overrides a model's `get`, `set`, `save` and `toJSON` so that
  *virtual* (computed) properties are dispatched to user-supplied
  getter/setter functions, while real attribute reads/writes and the final
  persistence call are delegated to the base model.  During a patch-style
  `save`, a transient `patchAttributes` buffer additionally records every
  real-attribute write performed while the virtual setters run.

  The embedding below translates the plugin's functions directly.  The base
  model operations (`proto.get`, `proto.set`, `proto.toJSON`, `proto.save`,
  `saveMethod`) are not part of the plugin file; they are modelled from the
  spec's description of the persistence collaborator, and every call into
  them is additionally recorded as an `Event` so that theorems can speak
  about what the underlying layer receives.
-/

set_option autoImplicit false

namespace Virtuals

/-- JS values that occur as model attribute values in this development. -/
inductive Val where
  | str (s : String)
  | num (n : Int)
  | undef
deriving DecidableEq, Repr

abbrev Err := String

/-- A JS object is embedded as an association list (unique keys, in insertion
order). -/
abbrev AList := List (String × Val)

/-- First-match lookup of a key, `obj[k]` (`none` plays `undefined`). -/
def lookupV {β : Type} : List (String × β) → String → Option β
  | [], _ => none
  | (k', v) :: rest, k => if k' = k then some v else lookupV rest k

/-- JS property assignment `obj[k] = v` on an association list: overwrite in
place when the key exists, append otherwise. -/
def insertKV {β : Type} : List (String × β) → String → β → List (String × β)
  | [], k, v => [(k, v)]
  | (k', v') :: rest, k, v =>
      if k' = k then (k, v) :: rest else (k', v') :: insertKV rest k v

/-- lodash `_.extend(target, src)`: assign every entry of `src`, in order. -/
def extendKV {β : Type} (l src : List (String × β)) : List (String × β) :=
  src.foldl (fun acc p => insertKV acc p.1 p.2) l

/-- One step of a user-written virtual setter body: a `this.set(key, value)`
call or a `throw`.  Setter bodies are embedded as straight-line sequences of
such steps. -/
inductive SetterAction where
  | setCall (k : String) (v : Val)
  | throwErr (e : Err)

/-- A virtual declaration: either a plain getter function, or a `{get, set}`
pair (with the `set` member optional).  Getters receive the instance's
attributes (their `this`) and the caller-supplied argument list. -/
inductive VirtualDef where
  | fn (g : AList → List Val → Val)
  | pair (g : AList → List Val → Val) (s : Option (Val → List SetterAction))

/-- The getter of a virtual (`virtuals[name].get` when present, otherwise the
declaration itself). -/
def VirtualDef.getter : VirtualDef → (AList → List Val → Val)
  | .fn g => g
  | .pair g _ => g

/-- `virtual.set` in the source: a plain function declaration has no `set`
property. -/
def VirtualDef.setter : VirtualDef → Option (Val → List SetterAction)
  | .fn _ => none
  | .pair _ s => s

/-- The method the base `saveMethod` resolves a save to. -/
inductive Method where
  | insert
  | update
deriving DecidableEq, Repr

/-- The save options the plugin inspects: the `patch` flag and an optional
explicitly requested method. -/
structure SaveOptions where
  patch : Bool
  method : Option Method
deriving DecidableEq, Repr

/-- A model instance: real attributes, the per-class virtual registry, the
transient patch buffer (`none` when absent, as in the source where the field
is deleted), the persisted-identity flag and the class-level `outputVirtuals`
default. -/
structure Model where
  attributes : AList
  virtuals : List (String × VirtualDef)
  patchAttributes : Option AList
  isNew : Bool
  outputVirtuals : Bool

/-- A call into the modelled base layer (what the persistence collaborator
receives), recorded so theorems can talk about it. -/
inductive Event where
  | setterInvoked (name : String) (value : Val)
  | protoSetSingle (k : String) (v : Val)
  | protoSetBag (kvs : AList)
  | protoSaveCall (attrs : AList) (opts : SaveOptions)
deriving DecidableEq, Repr

/-- Result of running one plugin operation: the model afterwards, the base
layer calls it made, and the error it threw (if any). -/
structure Res where
  model : Model
  events : List Event
  err : Option Err

/-- The effect of one non-virtual write reaching the tail of the overridden
single-key `set`: when a patch buffer is active the write is recorded there,
and the base `set` (modelled from the spec: merge into the stored attributes)
runs as well. -/
def applyWrite (m : Model) (k : String) (v : Val) : Model :=
  let m1 := if m.patchAttributes.isSome then
      { m with patchAttributes := some (insertKV (m.patchAttributes.getD []) k v) }
    else m
  { m1 with attributes := insertKV m1.attributes k v }

mutual

/-- The plugin's `setVirtual(value, key)`: when `key` names a registered
virtual, run its setter (when present) and report `true`; otherwise report
`false`.  Running a setter consumes one unit of fuel (the fuel bounds the
nesting depth of setter-triggered setter invocations, which is unbounded in
the source). -/
def setVirtualFn (fuel : Nat) (m : Model) (value : Val) (key : String) :
    Res × Bool :=
  match lookupV m.virtuals key with
  | some vd =>
      match vd.setter with
      | some f =>
          match fuel with
          | 0 => (⟨m, [Event.setterInvoked key value], some "fuel"⟩, true)
          | n + 1 =>
              let r := runActions n m (f value)
              (⟨r.model, Event.setterInvoked key value :: r.events, r.err⟩, true)
      | none => (⟨m, [], none⟩, true)
  | none => (⟨m, [], none⟩, false)
termination_by (fuel, 1)

/-- Run the straight-line body of a virtual setter: each `this.set(k, v)` goes
through the overridden single-key `set`, and a `throw` aborts the body. -/
def runActions (fuel : Nat) (m : Model) (actions : List SetterAction) : Res :=
  match actions with
  | [] => ⟨m, [], none⟩
  | SetterAction.throwErr e :: _ => ⟨m, [], some e⟩
  | SetterAction.setCall k v :: rest =>
      let r := setKV fuel m k v
      match r.err with
      | some _ => r
      | none =>
          let r2 := runActions fuel r.model rest
          ⟨r2.model, r.events ++ r2.events, r2.err⟩
termination_by (fuel, 3 + actions.length)

/-- The single-key form of the overridden `set` (`set("key", value, opts)`),
after the `key == null` guard: virtual keys dispatch to `setVirtual`, other
keys are written to the patch buffer when one is active and then reach the
base `set`. -/
def setKV (fuel : Nat) (m : Model) (k : String) (v : Val) : Res :=
  let r := setVirtualFn fuel m v k
  if r.2 then r.1
  else ⟨applyWrite m k v, [Event.protoSetSingle k v], none⟩
termination_by (fuel, 2)

/-- The shared per-entry iteration of `_.omitBy(key, setVirtual)` (bag-form
`set`) and of the `_.each(attrs, ...)` loop inside patch `save`: run
`setVirtual` on every entry, keep the entries that were not virtual, and stop
at the first setter error. -/
def omitVirtuals (fuel : Nat) (m : Model) (kvs : AList) : Res × AList :=
  match kvs with
  | [] => (⟨m, [], none⟩, [])
  | (k, v) :: rest =>
      let r := setVirtualFn fuel m v k
      match r.1.err with
      | some _ => (r.1, [])
      | none =>
          let r2 := omitVirtuals fuel r.1.model rest
          (⟨r2.1.model, r.1.events ++ r2.1.events, r2.1.err⟩,
           if r.2 then r2.2 else (k, v) :: r2.2)
termination_by (fuel, 3 + kvs.length)

end

/-- The bag form of the overridden `set` (`set({k: v, ...}, opts)`): partition
via `setVirtual`, extend an active patch buffer with the non-virtual entries,
then hand exactly those entries to the base `set` (modelled from the spec:
merge into the stored attributes). -/
def setBag (fuel : Nat) (m : Model) (kvs : AList) : Res :=
  let isPatching := m.patchAttributes.isSome
  let (r, nonVirtuals) := omitVirtuals fuel m kvs
  match r.err with
  | some _ => r
  | none =>
      let m1 := if isPatching then
          { r.model with
            patchAttributes := some (extendKV (r.model.patchAttributes.getD []) nonVirtuals) }
        else r.model
      let m2 := { m1 with attributes := extendKV m1.attributes nonVirtuals }
      ⟨m2, r.events ++ [Event.protoSetBag nonVirtuals], none⟩

/-- The argument shapes of the overridden `set(key, value, options)`. -/
inductive SetArg where
  | noKey
  | bag (kvs : AList)
  | single (k : String) (v : Val)

/-- The overridden `set`: a `null`/`undefined` key returns the instance
unchanged, an object dispatches to the bag form, a string key to the
single-key form. -/
def modelSet (fuel : Nat) (m : Model) (arg : SetArg) : Res :=
  match arg with
  | SetArg.noKey => ⟨m, [], none⟩
  | SetArg.bag kvs => setBag fuel m kvs
  | SetArg.single k v => setKV fuel m k v

/-- Modelled from the spec: the base model's `get` returns the stored real
attribute (`undefined` when absent). -/
def protoGet (m : Model) (attr : String) : Val :=
  (lookupV m.attributes attr).getD Val.undef

/-- The plugin's `getVirtual(model, virtualName, ...params)`: apply the
registered getter, bound to the instance, to the trailing arguments. -/
def getVirtualFn (m : Model) (name : String) (params : List Val) : Option Val :=
  match lookupV m.virtuals name with
  | some vd => some (vd.getter m.attributes params)
  | none => none

/-- The overridden `get(attr, ...args)`: registered virtuals dispatch to
`getVirtual`, everything else delegates to the base `get`. -/
def modelGet (m : Model) (attr : String) (args : List Val) : Val :=
  match lookupV m.virtuals attr with
  | some _ => (getVirtualFn m attr args).getD Val.undef
  | none => protoGet m attr

/-- The plugin's `getVirtuals(model, params)`: the computed value of every
registered virtual, in registry order, each getter receiving
`params[name]` (possibly `undefined`) as its single argument. -/
def getVirtualsFn (m : Model) (params : Option AList) : AList :=
  m.virtuals.map (fun p =>
    (p.1, p.2.getter m.attributes
      [((params.bind (fun ps => lookupV ps p.1)).getD Val.undef)]))

/-- The serialization options the overridden `toJSON` inspects. -/
structure JsonOptions where
  virtuals : Option Bool
  omitNew : Bool
  virtualParams : Option AList

/-- `options && options.omitNew` for a possibly absent options object. -/
def jsonOmitNew : Option JsonOptions → Bool
  | some o => o.omitNew
  | none => false

/-- `options.virtuals` for a possibly absent options object. -/
def jsonVirtuals : Option JsonOptions → Option Bool
  | some o => o.virtuals
  | none => none

/-- Modelled from the spec: the base model's `toJSON` produces the plain
mapping of persisted attributes. -/
def protoToJSON (m : Model) : AList := m.attributes

/-- The overridden `toJSON(options)`: start from the base representation;
return it unchanged for `omitNew` on an unpersisted record; otherwise merge
the computed virtuals in when `options.virtuals` is not `false` and either
`options.virtuals` is `true` or the class-level `outputVirtuals` is set. -/
def modelToJSON (m : Model) (options : Option JsonOptions) : AList :=
  let attrs := protoToJSON m
  if jsonOmitNew options && m.isNew then attrs
  else if jsonVirtuals options ≠ some false then
    if jsonVirtuals options = some true ∨ m.outputVirtuals then
      extendKV attrs (getVirtualsFn m (options.bind JsonOptions.virtualParams))
    else attrs
  else attrs

/-- Modelled from the spec: the base model's `saveMethod` — an explicitly
requested method wins; otherwise `patch` selects a partial update, a new
record inserts and a persisted one updates. -/
def saveMethod (m : Model) (opts : SaveOptions) : Method :=
  match opts.method with
  | some meth => meth
  | none =>
      if opts.patch then Method.update
      else if m.isNew then Method.insert else Method.update

/-- The argument shapes of the overridden `save(key, value, options)`. -/
inductive SaveArg where
  | noKey (opts : Option SaveOptions)
  | bag (kvs : AList) (opts : Option SaveOptions)
  | single (k : String) (v : Val) (opts : Option SaveOptions)

/-- The save options used when the caller supplied none (`{}`). -/
def defaultSaveOptions : SaveOptions := ⟨false, none⟩

/-- The argument normalization at the top of the overridden `save`: both
`("key", value)` and `{key: value}` shapes produce an attribute bag and an
options object. -/
def normalizeSaveArgs : SaveArg → AList × SaveOptions
  | SaveArg.noKey o => ([], o.getD defaultSaveOptions)
  | SaveArg.bag kvs o => (kvs, o.getD defaultSaveOptions)
  | SaveArg.single k v o => ([(k, v)], o.getD defaultSaveOptions)

/-- The overridden `save`: resolve the method; on a patch update, allocate the
`patchAttributes` buffer, run `setVirtual` over the payload deleting the
virtual entries, merge the buffer into the payload, release the buffer on
every exit path (a setter error rejects the save); finally delegate to the
base `save` (modelled from the spec: the persistence layer receives the
payload and options, recorded as a `protoSaveCall` event). -/
def modelSave (fuel : Nat) (m : Model) (arg : SaveArg) : Res :=
  let attrs := (normalizeSaveArgs arg).1
  let opts0 := (normalizeSaveArgs arg).2
  let opts : SaveOptions := { opts0 with method := some (saveMethod m opts0) }
  if opts.method = some Method.update ∧ opts.patch = true then
    let m1 := { m with patchAttributes := some [] }
    let r := omitVirtuals fuel m1 attrs
    match r.1.err with
    | some e => ⟨{ r.1.model with patchAttributes := none }, r.1.events, some e⟩
    | none =>
        let finalAttrs := extendKV r.2 (r.1.model.patchAttributes.getD [])
        ⟨{ r.1.model with patchAttributes := none },
         r.1.events ++ [Event.protoSaveCall finalAttrs opts], none⟩
  else
    ⟨m, [Event.protoSaveCall attrs opts], none⟩

/-- `_.extend({}, this.attributes, getVirtuals(this))`: the merged mapping
that the mixed-in lodash proxy methods operate on. -/
def mergedAttrs (m : Model) : AList :=
  extendKV (extendKV [] m.attributes) (getVirtualsFn m none)

/-- The mixed-in lodash `keys` proxy. -/
def modelKeys (m : Model) : List String := (mergedAttrs m).map Prod.fst

/-- The mixed-in lodash `values` proxy. -/
def modelValues (m : Model) : List Val := (mergedAttrs m).map Prod.snd

/-- The mixed-in lodash `toPairs` proxy. -/
def modelToPairs (m : Model) : AList := mergedAttrs m

/-- JS property assignment for `Val`-keyed association lists (lodash `invert`
builds such an object). -/
def insertInv : List (Val × String) → Val → String → List (Val × String)
  | [], k, v => [(k, v)]
  | (k', v') :: rest, k, v =>
      if k' = k then (k, v) :: rest else (k', v') :: insertInv rest k v

/-- The mixed-in lodash `invert` proxy: assign `result[value] = key` for every
entry of the merged mapping, in order. -/
def modelInvert (m : Model) : List (Val × String) :=
  ((mergedAttrs m).map (fun p => (p.2, p.1))).foldl
    (fun acc p => insertInv acc p.1 p.2) []

/-- The mixed-in lodash `pick` proxy: the requested keys of the merged
mapping, in request order. -/
def modelPick (m : Model) (names : List String) : AList :=
  names.filterMap (fun k => (lookupV (mergedAttrs m) k).map (fun v => (k, v)))

/-- The mixed-in lodash `omit` proxy: the merged mapping without the requested
keys. -/
def modelOmit (m : Model) (names : List String) : AList :=
  (mergedAttrs m).filter (fun p => decide (p.1 ∉ names))

/-! ### Specification-side functions

Compositional descriptions of what a capture phase does, used to state the
theorems; they are compared against the interpreter above. -/

/-- The real-attribute writes a setter body performs, in order. -/
def setterWrites (actions : List SetterAction) : AList :=
  actions.filterMap (fun a =>
    match a with
    | SetterAction.setCall k v => some (k, v)
    | SetterAction.throwErr _ => none)

/-- The base-layer calls processing one payload entry produces: a virtual key
with a setter yields the setter invocation followed by one single-key base
`set` per write; a virtual key without a setter and a non-virtual key yield
nothing (the latter is only collected, during capture). -/
def entryEvents (V : List (String × VirtualDef)) (p : String × Val) : List Event :=
  match lookupV V p.1 with
  | some vd =>
      match vd.setter with
      | some f =>
          Event.setterInvoked p.1 p.2 ::
            (setterWrites (f p.2)).map (fun q => Event.protoSetSingle q.1 q.2)
      | none => []
  | none => []

/-- The base-layer calls a whole capture phase over a payload produces. -/
def captureTrace (V : List (String × VirtualDef)) (kvs : AList) : List Event :=
  (kvs.map (entryEvents V)).flatten

/-- The real-attribute writes processing one payload entry triggers: the
writes of the virtual's setter when there is one, nothing otherwise. -/
def entryWrites (V : List (String × VirtualDef)) (p : String × Val) : AList :=
  match lookupV V p.1 with
  | some vd =>
      match vd.setter with
      | some f => setterWrites (f p.2)
      | none => []
  | none => []

/-- All real-attribute writes the virtual setters triggered by a payload
perform, in payload order. -/
def virtualWrites (V : List (String × VirtualDef)) (kvs : AList) : AList :=
  (kvs.map (entryWrites V)).flatten

/-- A registry is plain when every setter body only writes non-virtual keys
and never throws (the shape of every setter in the spec's scenarios). -/
def PlainSetters (V : List (String × VirtualDef)) : Prop :=
  ∀ p ∈ V, ∀ f, p.2.setter = some f → ∀ v : Val, ∀ a ∈ f v,
    ∃ k w, a = SetterAction.setCall k w ∧ lookupV V k = none

/-- Apply a sequence of non-virtual writes to the model. -/
def applyWritesM (m : Model) (l : AList) : Model :=
  l.foldl (fun acc p => applyWrite acc p.1 p.2) m

/-- The number of occurrences of one event in a trace. -/
def countOcc (l : List Event) (e : Event) : Nat :=
  (l.filter (fun x => decide (x = e))).length

/-- A trace that contains no call to the base `save`. -/
def noSaveEvents (l : List Event) : Prop :=
  ∀ a opts, Event.protoSaveCall a opts ∉ l

/-! ### Concrete instances used by witnesses and counterexamples -/

/-- A concrete model with one read-only virtual, used as the C6 witness. -/
def cm6 : Model :=
  ⟨[("a", Val.num 1)],
   [("v", VirtualDef.pair (fun _ _ => Val.num 7) none)], none, false, true⟩

/-- A concrete model whose virtual `v` shadows a real attribute `v`, used as
the C7 witness. -/
def cm7 : Model :=
  ⟨[("v", Val.num 1), ("w", Val.num 2)],
   [("v", VirtualDef.fn (fun _ _ => Val.num 9))], none, false, true⟩

/-- A concrete unpersisted model with a virtual and `outputVirtuals` on, used
as the C8 witness. -/
def cm8 : Model :=
  ⟨[("a", Val.num 1)], [("v", VirtualDef.fn (fun _ _ => Val.num 9))],
   none, true, true⟩

/-- A concrete model with a parameterized virtual overwriting a real
attribute, used as the C5 witness. -/
def cm5 : Model :=
  ⟨[("v", Val.num 1), ("a", Val.num 2)],
   [("v", VirtualDef.fn (fun _ args => (args.headD Val.undef)))],
   none, false, false⟩

/-- A minimal model in the Capturing state (the patch buffer that `save`
allocates is active), used for the C2 counterexample and witness. -/
def cm2 : Model := ⟨[], [], some [], false, true⟩

/-- A concrete model with one writable virtual `v` (its setter writes `w`)
and one read-only virtual `r`, used as the C4 witness. -/
def cm4 : Model :=
  ⟨[("a", Val.num 0)],
   [("v", VirtualDef.pair (fun _ _ => Val.undef)
      (some (fun x => [SetterAction.setCall "w" x]))),
    ("r", VirtualDef.pair (fun _ _ => Val.undef) none)],
   none, false, true⟩

/-- `x.split(' ')[0]` on a string value: the characters before the first
space. -/
def splitFirst : Val → Val
  | Val.str s => Val.str (String.mk (s.toList.takeWhile (fun c => c != ' ')))
  | v => v

/-- `x.split(' ')[1]` on a string value: the characters after the first
space. -/
def splitSecond : Val → Val
  | Val.str s =>
      Val.str (String.mk ((s.toList.dropWhile (fun c => c != ' ')).drop 1))
  | v => v

/-- The spec's patch-save scenario model: a virtual `fullName` whose setter
splits the value into `this.set('first', ...)` and `this.set('last', ...)`,
used as the C1 witness. -/
def adaModel : Model :=
  ⟨[],
   [("fullName", VirtualDef.pair
      (fun attrs _ => (lookupV attrs "first").getD Val.undef)
      (some (fun x => [SetterAction.setCall "first" (splitFirst x),
                       SetterAction.setCall "last" (splitSecond x)])))],
   none, false, true⟩

/-- A concrete model whose virtual `boom` has a throwing setter, used as the
C3 witness. -/
def cm3 : Model :=
  ⟨[("a", Val.num 1)],
   [("boom", VirtualDef.pair (fun _ _ => Val.undef)
      (some (fun _ => [SetterAction.throwErr "setter failed"])))],
   none, false, true⟩

/-- A concrete model whose virtual `v` shadows the real `v`, used as the C10
witness. -/
def cm10 : Model :=
  ⟨[("a", Val.num 1), ("v", Val.num 2)],
   [("v", VirtualDef.fn (fun _ _ => Val.num 9))],
   none, false, true⟩

/-! ### Association-list lemmas -/

theorem lookupV_mem {β : Type} {V : List (String × β)} {k : String} {d : β}
    (h : lookupV V k = some d) : (k, d) ∈ V := by
  induction V with
  | nil => simp [lookupV] at h
  | cons p rest ih =>
      obtain ⟨k', v'⟩ := p
      by_cases hk : k' = k
      · subst hk
        simp [lookupV] at h
        simp [h]
      · simp [lookupV, hk] at h
        exact List.mem_cons_of_mem _ (ih h)

@[simp] theorem lookupV_insert_self {β : Type} (l : List (String × β)) (k : String) (v : β) :
    lookupV (insertKV l k v) k = some v := by
  induction l with
  | nil => simp [insertKV, lookupV]
  | cons p rest ih =>
      by_cases hk : p.1 = k
      · simp [insertKV, hk, lookupV]
      · simp [insertKV, hk, lookupV, ih]

theorem lookupV_insert_ne {β : Type} (l : List (String × β)) (k k' : String) (v : β)
    (h : k ≠ k') : lookupV (insertKV l k v) k' = lookupV l k' := by
  induction l with
  | nil => simp [insertKV, lookupV, h]
  | cons p rest ih =>
      by_cases hk : p.1 = k
      · simp [insertKV, hk, lookupV, h, Ne.symm h]
      · simp [insertKV, hk, lookupV, ih]

theorem mem_keys_insertKV {β : Type} (l : List (String × β)) (k k' : String) (v : β) :
    k' ∈ (insertKV l k v).map Prod.fst ↔ k' ∈ l.map Prod.fst ∨ k' = k := by
  induction l with
  | nil => simp [insertKV]
  | cons p rest ih =>
      by_cases hk : p.1 = k
      · subst hk
        simp [insertKV]
        tauto
      · simp [insertKV, hk, ih]
        tauto

theorem mem_keys_extendKV {β : Type} (src l : List (String × β)) (k : String) :
    k ∈ (extendKV l src).map Prod.fst ↔ k ∈ l.map Prod.fst ∨ k ∈ src.map Prod.fst := by
  induction src generalizing l with
  | nil => simp [extendKV]
  | cons p rest ih =>
      show k ∈ (extendKV (insertKV l p.1 p.2) rest).map Prod.fst ↔ _
      rw [ih, mem_keys_insertKV]
      simp
      tauto

theorem lookupV_eq_none_iff {β : Type} (l : List (String × β)) (k : String) :
    lookupV l k = none ↔ k ∉ l.map Prod.fst := by
  induction l with
  | nil => simp [lookupV]
  | cons p rest ih =>
      by_cases hk : p.1 = k
      · simp [lookupV, hk]
      · simp [lookupV, hk, ih, Ne.symm hk]

theorem lookupV_extendKV {β : Type} (src l : List (String × β)) (k : String)
    (hnd : (src.map Prod.fst).Nodup) :
    lookupV (extendKV l src) k =
      match lookupV src k with
      | some v => some v
      | none => lookupV l k := by
  induction src generalizing l with
  | nil => simp [extendKV, lookupV]
  | cons p rest ih =>
      simp only [List.map_cons, List.nodup_cons] at hnd
      show lookupV (extendKV (insertKV l p.1 p.2) rest) k = _
      by_cases hk : p.1 = k
      · subst hk
        have hrest : lookupV rest p.1 = none :=
          (lookupV_eq_none_iff rest p.1).2 hnd.1
        rw [ih _ hnd.2]
        simp [lookupV, hrest]
      · rw [ih _ hnd.2]
        simp only [lookupV, hk, if_neg hk]
        cases hr : lookupV rest k
        · simp [lookupV_insert_ne _ _ _ _ hk]
        · simp

theorem extendKV_append {β : Type} (l s1 s2 : List (String × β)) :
    extendKV l (s1 ++ s2) = extendKV (extendKV l s1) s2 := by
  simp [extendKV, List.foldl_append]

/-! ### Interpreter unfolding lemmas -/

theorem setVirtualFn_nonvirtual (fuel : Nat) (m : Model) (v : Val) (k : String)
    (h : lookupV m.virtuals k = none) :
    setVirtualFn fuel m v k = (⟨m, [], none⟩, false) := by
  simp [setVirtualFn, h]

theorem setVirtualFn_no_setter (fuel : Nat) (m : Model) (v : Val) (k : String)
    (vd : VirtualDef) (h1 : lookupV m.virtuals k = some vd)
    (h2 : vd.setter = none) :
    setVirtualFn fuel m v k = (⟨m, [], none⟩, true) := by
  simp [setVirtualFn, h1, h2]

theorem setVirtualFn_setter (n : Nat) (m : Model) (v : Val) (k : String)
    (vd : VirtualDef) (f : Val → List SetterAction)
    (h1 : lookupV m.virtuals k = some vd) (h2 : vd.setter = some f) :
    setVirtualFn (n + 1) m v k =
      (⟨(runActions n m (f v)).model,
        Event.setterInvoked k v :: (runActions n m (f v)).events,
        (runActions n m (f v)).err⟩, true) := by
  simp [setVirtualFn, h1, h2]

theorem setKV_nonvirtual (fuel : Nat) (m : Model) (k : String) (v : Val)
    (h : lookupV m.virtuals k = none) :
    setKV fuel m k v = ⟨applyWrite m k v, [Event.protoSetSingle k v], none⟩ := by
  simp [setKV, setVirtualFn_nonvirtual fuel m v k h]

theorem setKV_virtual (fuel : Nat) (m : Model) (k : String) (v : Val)
    (h : (setVirtualFn fuel m v k).2 = true) :
    setKV fuel m k v = (setVirtualFn fuel m v k).1 := by
  simp [setKV, h]

@[simp] theorem applyWrite_virtuals (m : Model) (k : String) (v : Val) :
    (applyWrite m k v).virtuals = m.virtuals := by
  cases h : m.patchAttributes <;> simp [applyWrite, h]

@[simp] theorem applyWrite_isNew (m : Model) (k : String) (v : Val) :
    (applyWrite m k v).isNew = m.isNew := by
  cases h : m.patchAttributes <;> simp [applyWrite, h]

@[simp] theorem applyWrite_outputVirtuals (m : Model) (k : String) (v : Val) :
    (applyWrite m k v).outputVirtuals = m.outputVirtuals := by
  cases h : m.patchAttributes <;> simp [applyWrite, h]

theorem applyWrite_attributes (m : Model) (k : String) (v : Val) :
    (applyWrite m k v).attributes = insertKV m.attributes k v := by
  cases h : m.patchAttributes <;> simp [applyWrite, h]

theorem applyWrite_patch (m : Model) (k : String) (v : Val) :
    (applyWrite m k v).patchAttributes =
      m.patchAttributes.map (fun b => insertKV b k v) := by
  cases h : m.patchAttributes <;> simp [applyWrite, h]

theorem applyWritesM_append (m : Model) (l1 l2 : AList) :
    applyWritesM m (l1 ++ l2) = applyWritesM (applyWritesM m l1) l2 := by
  simp [applyWritesM, List.foldl_append]

@[simp] theorem applyWritesM_virtuals (l : AList) : ∀ (m : Model),
    (applyWritesM m l).virtuals = m.virtuals := by
  induction l with
  | nil => intro m; simp [applyWritesM]
  | cons p rest ih =>
      intro m
      show (applyWritesM (applyWrite m p.1 p.2) rest).virtuals = _
      rw [ih]
      simp

@[simp] theorem applyWritesM_isNew (l : AList) : ∀ (m : Model),
    (applyWritesM m l).isNew = m.isNew := by
  induction l with
  | nil => intro m; simp [applyWritesM]
  | cons p rest ih =>
      intro m
      show (applyWritesM (applyWrite m p.1 p.2) rest).isNew = _
      rw [ih]
      simp

theorem applyWritesM_attributes (l : AList) : ∀ (m : Model),
    (applyWritesM m l).attributes = extendKV m.attributes l := by
  induction l with
  | nil => intro m; simp [applyWritesM, extendKV]
  | cons p rest ih =>
      intro m
      show (applyWritesM (applyWrite m p.1 p.2) rest).attributes = _
      rw [ih]
      show extendKV (applyWrite m p.1 p.2).attributes rest = _
      rw [applyWrite_attributes]
      rfl

theorem applyWritesM_patch (l : AList) : ∀ (m : Model),
    (applyWritesM m l).patchAttributes =
      m.patchAttributes.map (fun b => extendKV b l) := by
  induction l with
  | nil =>
      intro m
      cases h : m.patchAttributes <;> simp [applyWritesM, extendKV, h]
  | cons p rest ih =>
      intro m
      show (applyWritesM (applyWrite m p.1 p.2) rest).patchAttributes = _
      rw [ih, applyWrite_patch]
      cases m.patchAttributes <;> rfl

/-! ### Characterization of a capture phase over plain setters -/

theorem runActions_plain (fuel : Nat) (actions : List SetterAction) :
    ∀ (m : Model),
    (∀ a ∈ actions, ∃ k w, a = SetterAction.setCall k w ∧
        lookupV m.virtuals k = none) →
    runActions fuel m actions =
      ⟨applyWritesM m (setterWrites actions),
       (setterWrites actions).map (fun q => Event.protoSetSingle q.1 q.2),
       none⟩ := by
  induction actions with
  | nil => intro m _; simp [runActions, applyWritesM, setterWrites]
  | cons a rest ih =>
      intro m h
      obtain ⟨k, w, ha, hk⟩ := h a (List.mem_cons_self a rest)
      subst ha
      have hset := setKV_nonvirtual fuel m k w hk
      have hrest := ih (applyWrite m k w) (by
        intro a' ha'
        obtain ⟨k', w', ha'', hk'⟩ := h a' (List.mem_cons_of_mem _ ha')
        exact ⟨k', w', ha'', by rw [applyWrite_virtuals]; exact hk'⟩)
      simp only [runActions, hset, hrest, setterWrites, List.filterMap_cons]
      show Res.mk (applyWritesM (applyWrite m k w) (setterWrites rest)) _ _ = _
      rw [show applyWritesM (applyWrite m k w) (setterWrites rest) =
            applyWritesM m ((k, w) :: setterWrites rest) from rfl]
      simp [setterWrites]

theorem omitVirtuals_plain (n : Nat) (kvs : AList) : ∀ (m : Model),
    PlainSetters m.virtuals →
    omitVirtuals (n + 1) m kvs =
      (⟨applyWritesM m (virtualWrites m.virtuals kvs),
        captureTrace m.virtuals kvs, none⟩,
       kvs.filter (fun p => (lookupV m.virtuals p.1).isNone)) := by
  induction kvs with
  | nil =>
      intro m _
      simp [omitVirtuals, applyWritesM, virtualWrites, captureTrace]
  | cons p rest ih =>
      intro m hps
      obtain ⟨k, v⟩ := p
      cases hk : lookupV m.virtuals k with
      | none =>
          have h1 := setVirtualFn_nonvirtual (n + 1) m v k hk
          simp only [omitVirtuals, h1, ih m hps, virtualWrites, entryWrites, captureTrace,
            entryEvents, hk, List.map_cons, List.flatten_cons, List.filter_cons]
          simp [virtualWrites, entryWrites, captureTrace]
      | some vd =>
          cases hs : vd.setter with
          | none =>
              have h1 := setVirtualFn_no_setter (n + 1) m v k vd hk hs
              simp only [omitVirtuals, h1, ih m hps, virtualWrites, captureTrace,
                entryEvents, hk, hs, List.map_cons, List.flatten_cons,
                List.filter_cons]
              simp [virtualWrites, entryWrites, captureTrace, hk, hs]
          | some f =>
              have hplain : ∀ a ∈ f v, ∃ k' w, a = SetterAction.setCall k' w ∧
                  lookupV m.virtuals k' = none := by
                intro a ha
                obtain ⟨k', w, ha', hk'⟩ :=
                  hps (k, vd) (lookupV_mem hk) f hs v a ha
                exact ⟨k', w, ha', hk'⟩
              have hrun := runActions_plain n (f v) m hplain
              have h1 := setVirtualFn_setter n m v k vd f hk hs
              have hps' : PlainSetters (applyWritesM m (setterWrites (f v))).virtuals := by
                rw [applyWritesM_virtuals]; exact hps
              have ihm := ih (applyWritesM m (setterWrites (f v))) hps'
              simp only [omitVirtuals, h1, hrun, ihm, applyWritesM_virtuals]
              simp only [virtualWrites, entryWrites, captureTrace, entryEvents, hk, hs,
                List.map_cons, List.flatten_cons, List.filter_cons]
              rw [← applyWritesM_append]
              simp [virtualWrites, entryWrites, captureTrace, hk, hs]

theorem lookupV_virtualsMap (V : List (String × VirtualDef)) (attrs : AList)
    (params : Option AList) (k : String) :
    lookupV (V.map (fun p => (p.1, p.2.getter attrs
        [((params.bind (fun ps => lookupV ps p.1)).getD Val.undef)]))) k =
      (lookupV V k).map (fun vd => vd.getter attrs
        [((params.bind (fun ps => lookupV ps k)).getD Val.undef)]) := by
  induction V with
  | nil => rfl
  | cons p rest ih =>
      by_cases hk : p.1 = k
      · subst hk; simp [lookupV]
      · simp [lookupV, hk, ih]

/-! ### Claims -/

/-- C9: `set` with a `null`/`undefined` key returns the model instance itself
with no effect: no setter runs, no base-layer call is made, no error is
raised. -/
theorem set_null_key_noop (fuel : Nat) (m : Model) :
    modelSet fuel m SetArg.noKey = ⟨m, [], none⟩ := rfl

/-- C6: a single-key write to a registered virtual that has no setter is a
silent no-op — the model (in particular its real attribute set) is unchanged,
no base-layer call is made, no error is raised — and a subsequent `get` of
that name returns only the getter's own computation. -/
theorem set_readonly_virtual_noop (fuel : Nat) (m : Model) (k : String)
    (v : Val) (vd : VirtualDef) (args : List Val)
    (h1 : lookupV m.virtuals k = some vd) (h2 : vd.setter = none) :
    modelSet fuel m (SetArg.single k v) = ⟨m, [], none⟩ ∧
    modelGet m k args = vd.getter m.attributes args := by
  constructor
  · show setKV fuel m k v = _
    rw [setKV_virtual fuel m k v
          (by rw [setVirtualFn_no_setter fuel m v k vd h1 h2]),
        setVirtualFn_no_setter fuel m v k vd h1 h2]
  · simp [modelGet, getVirtualFn, h1]

/-- C6 witness: `set("v", 5)` on `cm6` leaves the model untouched and
`get("v")` computes `7`. -/
theorem set_readonly_virtual_noop_witness :
    modelSet 1 cm6 (SetArg.single "v" (Val.num 5)) = ⟨cm6, [], none⟩ ∧
    modelGet cm6 "v" [] = Val.num 7 :=
  set_readonly_virtual_noop 1 cm6 "v" (Val.num 5)
    (VirtualDef.pair (fun _ _ => Val.num 7) none) [] rfl rfl

/-- C7: `get(attr, ...args)` dispatches to the registered virtual's getter —
bound to the instance, applied to the arguments, taking precedence over any
real attribute of the same name — and otherwise delegates to the base `get`;
unregistered names are never an error. -/
theorem get_dispatch (m : Model) (attr : String) (args : List Val) :
    (∀ vd, lookupV m.virtuals attr = some vd →
        modelGet m attr args = vd.getter m.attributes args) ∧
    (lookupV m.virtuals attr = none → modelGet m attr args = protoGet m attr) := by
  constructor
  · intro vd h; simp [modelGet, getVirtualFn, h]
  · intro h; simp [modelGet, h]

/-- C7 witness: on `cm7` the virtual wins over the shadowed real attribute,
and an unregistered name falls through to the base `get`. -/
theorem get_dispatch_witness :
    modelGet cm7 "v" [] = Val.num 9 ∧
    modelGet cm7 "zzz" [] = protoGet cm7 "zzz" :=
  ⟨(get_dispatch cm7 "v" []).1 (VirtualDef.fn (fun _ _ => Val.num 9)) rfl,
   (get_dispatch cm7 "zzz" []).2 rfl⟩

/-- C8: `toJSON` with `omitNew` set on a not-yet-persisted instance returns
the real-attribute representation unmodified, suppressing virtuals whatever
`options.virtuals` and the model default say. -/
theorem toJSON_omitNew (m : Model) (opts : JsonOptions)
    (h1 : opts.omitNew = true) (h2 : m.isNew = true) :
    modelToJSON m (some opts) = m.attributes := by
  simp [modelToJSON, jsonOmitNew, h1, h2, protoToJSON]

/-- C8 witness: `toJSON({omitNew: true, virtuals: true})` on the unpersisted
`cm8` yields only the real attributes. -/
theorem toJSON_omitNew_witness :
    modelToJSON cm8 (some ⟨some true, true, none⟩) = [("a", Val.num 1)] :=
  toJSON_omitNew cm8 ⟨some true, true, none⟩ rfl rfl

/-- C5: `toJSON` merges the virtuals exactly when `options.virtuals` is
`true`, or is unset and the model default is enabled; `virtuals: false`
always excludes them; when merged, every registered virtual's getter is
evaluated with `options.virtualParams[name]` as its argument and its value
overwrites any real attribute of the same name. -/
theorem toJSON_virtuals_inclusion (m : Model) (opts : JsonOptions)
    (h : opts.omitNew = false ∨ m.isNew = false) :
    (modelToJSON m (some opts) =
      if opts.virtuals = some true ∨ (opts.virtuals = none ∧ m.outputVirtuals = true)
      then extendKV m.attributes (getVirtualsFn m opts.virtualParams)
      else m.attributes) ∧
    (modelToJSON m none =
      if m.outputVirtuals = true
      then extendKV m.attributes (getVirtualsFn m none)
      else m.attributes) ∧
    ((m.virtuals.map Prod.fst).Nodup →
      (opts.virtuals = some true ∨ (opts.virtuals = none ∧ m.outputVirtuals = true)) →
      ∀ k vd, lookupV m.virtuals k = some vd →
        lookupV (modelToJSON m (some opts)) k =
          some (vd.getter m.attributes
            [((opts.virtualParams.bind (fun ps => lookupV ps k)).getD Val.undef)])) := by
  have homit : (jsonOmitNew (some opts) && m.isNew) = false := by
    rcases h with h | h <;> simp [jsonOmitNew, h]
  refine ⟨?_, ?_, ?_⟩
  · cases hv : opts.virtuals with
    | none =>
        cases ho : m.outputVirtuals <;>
          simp [modelToJSON, homit, jsonVirtuals, hv, ho, protoToJSON]
    | some b =>
        cases b <;> cases ho : m.outputVirtuals <;>
          simp [modelToJSON, homit, jsonVirtuals, hv, ho, protoToJSON]
  · cases ho : m.outputVirtuals <;>
      simp [modelToJSON, jsonOmitNew, jsonVirtuals, ho, protoToJSON]
  · intro hnd hincl k vd hvd
    have hmerge : modelToJSON m (some opts) =
        extendKV m.attributes (getVirtualsFn m opts.virtualParams) := by
      rcases hincl with hv | ⟨hv, ho⟩ <;>
        simp [modelToJSON, homit, jsonVirtuals, hv, protoToJSON, *]
    rw [hmerge]
    have hkeys : ((getVirtualsFn m opts.virtualParams).map Prod.fst).Nodup := by
      have : (getVirtualsFn m opts.virtualParams).map Prod.fst =
          m.virtuals.map Prod.fst := by
        simp [getVirtualsFn, List.map_map]
      rw [this]; exact hnd
    rw [lookupV_extendKV _ _ _ hkeys]
    have hlv : lookupV (getVirtualsFn m opts.virtualParams) k =
        some (vd.getter m.attributes
          [((opts.virtualParams.bind (fun ps => lookupV ps k)).getD Val.undef)]) := by
      show lookupV (m.virtuals.map _) k = _
      rw [lookupV_virtualsMap m.virtuals m.attributes opts.virtualParams k, hvd]
      rfl
    rw [hlv]

/-- C5 witness: on `cm5` (model default off) `toJSON({virtuals: true,
virtualParams: {v: 42}})` merges the virtual — computed from its parameter —
over the real `v`, and the merged mapping looks up to the getter value. -/
theorem toJSON_virtuals_inclusion_witness :
    (modelToJSON cm5 (some ⟨some true, false, some [("v", Val.num 42)]⟩) =
      extendKV cm5.attributes
        (getVirtualsFn cm5 (some [("v", Val.num 42)]))) ∧
    lookupV (modelToJSON cm5 (some ⟨some true, false, some [("v", Val.num 42)]⟩)) "v" =
      some (Val.num 42) := by
  have h := toJSON_virtuals_inclusion cm5 ⟨some true, false, some [("v", Val.num 42)]⟩
    (Or.inl rfl)
  refine ⟨?_, ?_⟩
  · have h1 := h.1
    simpa using h1
  · have h3 := h.2.2 (by simp [cm5]) (Or.inl rfl) "v"
      (VirtualDef.fn (fun _ args => (args.headD Val.undef))) rfl
    simpa using h3

/-- A lemma for the bag form while not dispatching any virtual: when every key
of the bag is non-virtual, the `omitBy setVirtual` pass keeps the whole bag
and has no effect. -/
theorem omitVirtuals_nonvirtual (fuel : Nat) (kvs : AList) : ∀ (m : Model),
    (∀ p ∈ kvs, lookupV m.virtuals p.1 = none) →
    omitVirtuals fuel m kvs = (⟨m, [], none⟩, kvs) := by
  induction kvs with
  | nil => intro m _; simp [omitVirtuals]
  | cons p rest ih =>
      intro m h
      obtain ⟨k, v⟩ := p
      have h1 := setVirtualFn_nonvirtual fuel m v k (h (k, v) (List.mem_cons_self _ _))
      simp only [omitVirtuals, h1]
      rw [ih m (fun q hq => h q (List.mem_cons_of_mem _ hq))]
      simp

/-- C2 counterexample: with the patch buffer active, `set("first", "Ada")`
lands in the live attribute set (as well as in the buffer) even though no
buffer merge happened, refuting the claim that the write is redirected into
the buffer *instead of* the live attribute set. -/
theorem set_patch_redirect_counterexample :
    (setKV 1 cm2 "first" (Val.str "Ada")).model.attributes =
      [("first", Val.str "Ada")] ∧
    (setKV 1 cm2 "first" (Val.str "Ada")).model.patchAttributes =
      some [("first", Val.str "Ada")] ∧
    cm2.attributes = [] := by
  refine ⟨?_, ?_, rfl⟩ <;>
    simp [setKV, setVirtualFn, cm2, lookupV, applyWrite, insertKV]

/-- C2 amended: while a patch buffer is active, every real-attribute write
performed via `set` — single-key or bag form, the single-key form being
exactly what a virtual setter's `this.set` calls use — is recorded in the
capture buffer *in addition to* being applied to the live attribute set by
the base `set`. -/
theorem set_patch_records_in_buffer (fuel : Nat) (m : Model) (buf : AList)
    (hbuf : m.patchAttributes = some buf) :
    (∀ k v, lookupV m.virtuals k = none →
      setKV fuel m k v =
        ⟨{ m with attributes := insertKV m.attributes k v,
                  patchAttributes := some (insertKV buf k v) },
         [Event.protoSetSingle k v], none⟩) ∧
    (∀ kvs, (∀ p ∈ kvs, lookupV m.virtuals p.1 = none) →
      setBag fuel m kvs =
        ⟨{ m with attributes := extendKV m.attributes kvs,
                  patchAttributes := some (extendKV buf kvs) },
         [Event.protoSetBag kvs], none⟩) := by
  constructor
  · intro k v hk
    rw [setKV_nonvirtual fuel m k v hk]
    simp [applyWrite, hbuf]
  · intro kvs hkvs
    simp only [setBag, omitVirtuals_nonvirtual fuel kvs m hkvs, hbuf]
    simp

/-- C2 witness: on the capturing model `cm2`, both `set` forms write the
buffer and the live attributes. -/
theorem set_patch_records_in_buffer_witness :
    setKV 1 cm2 "first" (Val.str "Ada") =
      ⟨{ cm2 with attributes := [("first", Val.str "Ada")],
                  patchAttributes := some [("first", Val.str "Ada")] },
       [Event.protoSetSingle "first" (Val.str "Ada")], none⟩ ∧
    setBag 1 cm2 [("last", Val.str "Lovelace")] =
      ⟨{ cm2 with attributes := [("last", Val.str "Lovelace")],
                  patchAttributes := some [("last", Val.str "Lovelace")] },
       [Event.protoSetBag [("last", Val.str "Lovelace")]], none⟩ := by
  have h := set_patch_records_in_buffer 1 cm2 [] rfl
  exact ⟨h.1 "first" (Val.str "Ada") rfl,
         h.2 [("last", Val.str "Lovelace")] (by simp [cm2, lookupV])⟩

/-! ### Occurrence counting in capture traces -/

theorem countOcc_append (l1 l2 : List Event) (e : Event) :
    countOcc (l1 ++ l2) e = countOcc l1 e + countOcc l2 e := by
  simp [countOcc, List.filter_append]

theorem countOcc_cons (x : Event) (l : List Event) (e : Event) :
    countOcc (x :: l) e = (if x = e then 1 else 0) + countOcc l e := by
  by_cases h : x = e <;> simp [countOcc, List.filter_cons, h, Nat.add_comm]

theorem countOcc_protoSingles (l : AList) (k : String) (v : Val) :
    countOcc (l.map (fun q => Event.protoSetSingle q.1 q.2))
      (Event.setterInvoked k v) = 0 := by
  induction l with
  | nil => rfl
  | cons p rest ih => simpa [countOcc_cons] using ih

theorem entryEvents_of_none (V : List (String × VirtualDef)) (p : String × Val)
    (h : lookupV V p.1 = none) : entryEvents V p = [] := by
  simp [entryEvents, h]

theorem entryEvents_of_no_setter (V : List (String × VirtualDef))
    (p : String × Val) (vd : VirtualDef) (h : lookupV V p.1 = some vd)
    (h2 : vd.setter = none) : entryEvents V p = [] := by
  simp [entryEvents, h, h2]

theorem entryEvents_of_setter (V : List (String × VirtualDef))
    (p : String × Val) (vd : VirtualDef) (f : Val → List SetterAction)
    (h : lookupV V p.1 = some vd) (h2 : vd.setter = some f) :
    entryEvents V p = Event.setterInvoked p.1 p.2 ::
      (setterWrites (f p.2)).map (fun q => Event.protoSetSingle q.1 q.2) := by
  simp [entryEvents, h, h2]

theorem countOcc_entryEvents_ne (V : List (String × VirtualDef))
    (p : String × Val) (k : String) (v : Val) (hne : p.1 ≠ k) :
    countOcc (entryEvents V p) (Event.setterInvoked k v) = 0 := by
  cases h1 : lookupV V p.1 with
  | none => rw [entryEvents_of_none V p h1]; rfl
  | some vd =>
      cases h2 : vd.setter with
      | none => rw [entryEvents_of_no_setter V p vd h1 h2]; rfl
      | some f =>
          rw [entryEvents_of_setter V p vd f h1 h2, countOcc_cons,
              countOcc_protoSingles]
          simp [hne]

theorem countOcc_captureTrace_notmem (V : List (String × VirtualDef))
    (kvs : AList) (k : String) (v : Val) (hk : k ∉ kvs.map Prod.fst) :
    countOcc (captureTrace V kvs) (Event.setterInvoked k v) = 0 := by
  induction kvs with
  | nil => rfl
  | cons p rest ih =>
      simp only [List.map_cons, List.mem_cons, not_or] at hk
      rw [show captureTrace V (p :: rest) =
            entryEvents V p ++ captureTrace V rest by simp [captureTrace],
          countOcc_append,
          countOcc_entryEvents_ne V p k v (fun h => hk.1 h.symm),
          ih hk.2]

theorem countOcc_captureTrace_setter (V : List (String × VirtualDef))
    (kvs : AList) (k : String) (v : Val) (vd : VirtualDef)
    (f : Val → List SetterAction) (hnd : (kvs.map Prod.fst).Nodup)
    (hmem : (k, v) ∈ kvs) (hvd : lookupV V k = some vd)
    (hf : vd.setter = some f) :
    countOcc (captureTrace V kvs) (Event.setterInvoked k v) = 1 := by
  induction kvs with
  | nil => cases hmem
  | cons p rest ih =>
      simp only [List.map_cons, List.nodup_cons] at hnd
      rw [show captureTrace V (p :: rest) =
            entryEvents V p ++ captureTrace V rest by simp [captureTrace],
          countOcc_append]
      rcases List.mem_cons.mp hmem with hp | hp
      · subst hp
        rw [countOcc_captureTrace_notmem V rest k v hnd.1,
            entryEvents_of_setter V (k, v) vd f hvd hf, countOcc_cons,
            countOcc_protoSingles]
        simp
      · have hne : p.1 ≠ k := by
          intro h
          exact hnd.1 (h ▸ (List.mem_map_of_mem Prod.fst hp))
        rw [countOcc_entryEvents_ne V p k v hne, ih hnd.2 hp]

theorem countOcc_captureTrace_no_setter (V : List (String × VirtualDef))
    (kvs : AList) (k : String) (v : Val) (vd : VirtualDef)
    (hvd : lookupV V k = some vd) (hns : vd.setter = none) :
    countOcc (captureTrace V kvs) (Event.setterInvoked k v) = 0 := by
  induction kvs with
  | nil => rfl
  | cons p rest ih =>
      rw [show captureTrace V (p :: rest) =
            entryEvents V p ++ captureTrace V rest by simp [captureTrace],
          countOcc_append, ih]
      by_cases hp : p.1 = k
      · rw [entryEvents_of_no_setter V p vd (hp ▸ hvd) hns]; rfl
      · rw [countOcc_entryEvents_ne V p k v hp]

theorem mem_filter_keys_nonvirtual (V : List (String × VirtualDef))
    (kvs : AList) (k : String) (h : (lookupV V k).isSome = true) :
    k ∉ (kvs.filter (fun p => (lookupV V p.1).isNone)).map Prod.fst := by
  intro hmem
  obtain ⟨p, hp, hpk⟩ := List.mem_map.mp hmem
  have := (List.mem_filter.mp hp).2
  rw [hpk] at this
  rw [Option.isNone_iff_eq_none.mp this] at h
  cases h

/-- C4: the bag form of `set` partitions its keys — each virtual key with a
setter has the setter invoked exactly once with its value, each virtual key
without a setter is silently dropped, and exactly the non-virtual entries,
unchanged and in order, are handed to the base `set`; no error is raised. -/
theorem set_bag_partitions (n : Nat) (m : Model) (kvs : AList)
    (hps : PlainSetters m.virtuals) (hnd : (kvs.map Prod.fst).Nodup) :
    ((modelSet (n + 1) m (SetArg.bag kvs)).err = none) ∧
    ((modelSet (n + 1) m (SetArg.bag kvs)).events =
      captureTrace m.virtuals kvs ++
        [Event.protoSetBag
          (kvs.filter (fun p => (lookupV m.virtuals p.1).isNone))]) ∧
    (∀ k v vd f, (k, v) ∈ kvs → lookupV m.virtuals k = some vd →
      vd.setter = some f →
      countOcc ((modelSet (n + 1) m (SetArg.bag kvs)).events)
        (Event.setterInvoked k v) = 1) ∧
    (∀ k v vd, (k, v) ∈ kvs → lookupV m.virtuals k = some vd →
      vd.setter = none →
      countOcc ((modelSet (n + 1) m (SetArg.bag kvs)).events)
        (Event.setterInvoked k v) = 0 ∧
      k ∉ (kvs.filter (fun p => (lookupV m.virtuals p.1).isNone)).map Prod.fst) := by
  have hbag : (modelSet (n + 1) m (SetArg.bag kvs)).err = none ∧
      (modelSet (n + 1) m (SetArg.bag kvs)).events =
        captureTrace m.virtuals kvs ++
          [Event.protoSetBag
            (kvs.filter (fun p => (lookupV m.virtuals p.1).isNone))] := by
    show (setBag (n + 1) m kvs).err = none ∧ (setBag (n + 1) m kvs).events = _
    simp only [setBag, omitVirtuals_plain n kvs m hps]
    constructor
    · cases m.patchAttributes.isSome <;> simp
    · cases m.patchAttributes.isSome <;> simp
  refine ⟨hbag.1, hbag.2, ?_, ?_⟩
  · intro k v vd f hmem hvd hf
    rw [hbag.2, countOcc_append,
        countOcc_captureTrace_setter m.virtuals kvs k v vd f hnd hmem hvd hf]
    rfl
  · intro k v vd hmem hvd hns
    refine ⟨?_, mem_filter_keys_nonvirtual m.virtuals kvs k (by simp [hvd])⟩
    rw [hbag.2, countOcc_append,
        countOcc_captureTrace_no_setter m.virtuals kvs k v vd hvd hns]
    rfl

/-- The setters of `cm4` only write non-virtual keys and never throw. -/
theorem cm4_plain : PlainSetters cm4.virtuals := by
  intro p hp f hf v a ha
  simp only [cm4, List.mem_cons, List.not_mem_nil, or_false] at hp
  rcases hp with h | h
  · subst h
    simp only [VirtualDef.setter, Option.some.injEq] at hf
    subst hf
    simp only [List.mem_singleton] at ha
    subst ha
    exact ⟨"w", v, rfl, by simp [cm4, lookupV]⟩
  · subst h
    simp [VirtualDef.setter] at hf

/-- C4 witness: `set({v: 5, r: 3, b: 2})` on `cm4` invokes the `v` setter
exactly once with `5`, drops `r`, and hands exactly `{b: 2}` to the base
`set`. -/
theorem set_bag_partitions_witness :
    (modelSet 1 cm4
        (SetArg.bag [("v", Val.num 5), ("r", Val.num 3), ("b", Val.num 2)])).events =
      [Event.setterInvoked "v" (Val.num 5),
       Event.protoSetSingle "w" (Val.num 5),
       Event.protoSetBag [("b", Val.num 2)]] ∧
    countOcc ((modelSet 1 cm4
        (SetArg.bag [("v", Val.num 5), ("r", Val.num 3), ("b", Val.num 2)])).events)
      (Event.setterInvoked "v" (Val.num 5)) = 1 := by
  have h := set_bag_partitions 0 cm4
    [("v", Val.num 5), ("r", Val.num 3), ("b", Val.num 2)] cm4_plain (by simp)
  constructor
  · rw [h.2.1]
    decide
  · exact h.2.2.1 "v" (Val.num 5)
      (VirtualDef.pair (fun _ _ => Val.undef)
        (some (fun x => [SetterAction.setCall "w" x])))
      (fun x => [SetterAction.setCall "w" x]) (by simp) rfl rfl

/-! ### Patch save -/

@[simp] theorem applyWritesM_outputVirtuals (l : AList) : ∀ (m : Model),
    (applyWritesM m l).outputVirtuals = m.outputVirtuals := by
  induction l with
  | nil => intro m; simp [applyWritesM]
  | cons p rest ih =>
      intro m
      show (applyWritesM (applyWrite m p.1 p.2) rest).outputVirtuals = _
      rw [ih]
      simp

theorem entryWrites_of_none (V : List (String × VirtualDef)) (p : String × Val)
    (h : lookupV V p.1 = none) : entryWrites V p = [] := by
  simp [entryWrites, h]

theorem entryWrites_of_no_setter (V : List (String × VirtualDef))
    (p : String × Val) (vd : VirtualDef) (h : lookupV V p.1 = some vd)
    (h2 : vd.setter = none) : entryWrites V p = [] := by
  simp [entryWrites, h, h2]

theorem entryWrites_of_setter (V : List (String × VirtualDef))
    (p : String × Val) (vd : VirtualDef) (f : Val → List SetterAction)
    (h : lookupV V p.1 = some vd) (h2 : vd.setter = some f) :
    entryWrites V p = setterWrites (f p.2) := by
  simp [entryWrites, h, h2]

theorem virtualWrites_keys_nonvirtual (V : List (String × VirtualDef))
    (kvs : AList) (hps : PlainSetters V) :
    ∀ q ∈ virtualWrites V kvs, lookupV V q.1 = none := by
  intro q hq
  rw [virtualWrites, List.mem_flatten] at hq
  obtain ⟨l, hl, hql⟩ := hq
  obtain ⟨p, hp, hlp⟩ := List.mem_map.mp hl
  subst hlp
  cases h1 : lookupV V p.1 with
  | none => rw [entryWrites_of_none V p h1] at hql; cases hql
  | some vd =>
      cases h2 : vd.setter with
      | none => rw [entryWrites_of_no_setter V p vd h1 h2] at hql; cases hql
      | some f =>
          rw [entryWrites_of_setter V p vd f h1 h2] at hql
          rw [setterWrites, List.mem_filterMap] at hql
          obtain ⟨a, ha, hqa⟩ := hql
          obtain ⟨k', w', haeq, hk'⟩ := hps (p.1, vd) (lookupV_mem h1) f h2 p.2 a ha
          subst haeq
          simp only [Option.some.injEq] at hqa
          rw [← hqa]
          exact hk'

theorem setterInvoked_mem_captureTrace (V : List (String × VirtualDef))
    (kvs : AList) (k : String) (v : Val) :
    Event.setterInvoked k v ∈ captureTrace V kvs ↔
      ((k, v) ∈ kvs ∧ ∃ vd f, lookupV V k = some vd ∧ vd.setter = some f) := by
  induction kvs with
  | nil => simp [captureTrace]
  | cons p rest ih =>
      rw [show captureTrace V (p :: rest) =
            entryEvents V p ++ captureTrace V rest by simp [captureTrace],
          List.mem_append, ih]
      constructor
      · rintro (hm | ⟨hmem, hvf⟩)
        · cases h1 : lookupV V p.1 with
          | none => rw [entryEvents_of_none V p h1] at hm; cases hm
          | some vd =>
              cases h2 : vd.setter with
              | none =>
                  rw [entryEvents_of_no_setter V p vd h1 h2] at hm; cases hm
              | some f =>
                  rw [entryEvents_of_setter V p vd f h1 h2] at hm
                  rcases List.mem_cons.mp hm with he | he
                  · obtain ⟨hk, hv⟩ := Event.setterInvoked.inj he
                    subst hk; subst hv
                    exact ⟨List.mem_cons_self _ _, vd, f, h1, h2⟩
                  · exfalso
                    obtain ⟨q, _, hq⟩ := List.mem_map.mp he
                    cases hq
        · exact ⟨List.mem_cons_of_mem _ hmem, hvf⟩
      · rintro ⟨hmem, vd, f, hvd, hf⟩
        rcases List.mem_cons.mp hmem with hp | hp
        · left
          rw [entryEvents_of_setter V p vd f (by rw [← hp] at *; exact hvd) hf]
          rw [← hp]
          exact List.mem_cons_self _ _
        · exact Or.inr ⟨hp, vd, f, hvd, hf⟩

/-- C1: a patch-save (update method, patch flag) runs every virtual payload
key's setter on the payload value, strips the virtual keys, merges the
capture buffer into the payload as real-attribute keys, and hands exactly
this sanitized payload — original non-virtual entries extended with the
buffered writes, no virtual key surviving — to the base `save` together with
the original options (their method resolved to update); no error occurs and
the buffer is released. -/
theorem save_patch_sanitizes (n : Nat) (m : Model) (kvs : AList)
    (opts : SaveOptions) (hps : PlainSetters m.virtuals)
    (hpatch : opts.patch = true) (hmeth : saveMethod m opts = Method.update) :
    (modelSave (n + 1) m (SaveArg.bag kvs (some opts)) =
      ⟨{ m with attributes := extendKV m.attributes (virtualWrites m.virtuals kvs),
                patchAttributes := none },
        captureTrace m.virtuals kvs ++
          [Event.protoSaveCall
            (extendKV (kvs.filter (fun p => (lookupV m.virtuals p.1).isNone))
              (extendKV [] (virtualWrites m.virtuals kvs)))
            { opts with method := some Method.update }],
        none⟩) ∧
    (∀ k v, Event.setterInvoked k v ∈ captureTrace m.virtuals kvs ↔
      ((k, v) ∈ kvs ∧ ∃ vd f, lookupV m.virtuals k = some vd ∧
        vd.setter = some f)) ∧
    (∀ k, (lookupV m.virtuals k).isSome = true →
      lookupV (extendKV (kvs.filter (fun p => (lookupV m.virtuals p.1).isNone))
        (extendKV [] (virtualWrites m.virtuals kvs))) k = none) := by
  refine ⟨?_, fun k v => setterInvoked_mem_captureTrace m.virtuals kvs k v, ?_⟩
  · have hps' : PlainSetters ({ m with patchAttributes := some ([] : AList) }).virtuals := hps
    have homit := omitVirtuals_plain n kvs { m with patchAttributes := some ([] : AList) } hps'
    simp only [modelSave, normalizeSaveArgs, Option.getD_some, hmeth, hpatch,
      and_self, if_pos, homit]
    simp [Res.mk.injEq, Model.mk.injEq, applyWritesM_attributes,
      applyWritesM_patch, applyWritesM_virtuals, applyWritesM_isNew,
      applyWritesM_outputVirtuals]
  · intro k hk
    rw [lookupV_eq_none_iff]
    intro hmem
    rw [mem_keys_extendKV] at hmem
    rcases hmem with hmem | hmem
    · exact mem_filter_keys_nonvirtual m.virtuals kvs k hk hmem
    · rw [mem_keys_extendKV] at hmem
      rcases hmem with hmem | hmem
      · simp at hmem
      · obtain ⟨q, hq, hqk⟩ := List.mem_map.mp hmem
        have hnone := virtualWrites_keys_nonvirtual m.virtuals kvs hps q hq
        rw [hqk] at hnone
        rw [hnone] at hk
        cases hk

/-- The `fullName` setter of `adaModel` only writes the non-virtual keys
`first` and `last` and never throws. -/
theorem adaModel_plain : PlainSetters adaModel.virtuals := by
  intro p hp f hf v a ha
  simp only [adaModel, List.mem_cons, List.not_mem_nil, or_false] at hp
  subst hp
  simp only [VirtualDef.setter, Option.some.injEq] at hf
  subst hf
  simp only [List.mem_cons, List.not_mem_nil, or_false] at ha
  rcases ha with h | h
  · exact ⟨"first", splitFirst v, h, by simp [adaModel, lookupV]⟩
  · exact ⟨"last", splitSecond v, h, by simp [adaModel, lookupV]⟩

/-- C1 witness: `save({fullName: 'Ada Lovelace'}, {patch: true})` on
`adaModel` makes the base `save` receive `{first: 'Ada', last: 'Lovelace'}`
— and never `fullName`. -/
theorem save_patch_sanitizes_witness :
    (modelSave 1 adaModel
        (SaveArg.bag [("fullName", Val.str "Ada Lovelace")]
          (some ⟨true, none⟩))).events =
      [Event.setterInvoked "fullName" (Val.str "Ada Lovelace"),
       Event.protoSetSingle "first" (Val.str "Ada"),
       Event.protoSetSingle "last" (Val.str "Lovelace"),
       Event.protoSaveCall [("first", Val.str "Ada"), ("last", Val.str "Lovelace")]
         ⟨true, some Method.update⟩] ∧
    lookupV (extendKV
        ([("fullName", Val.str "Ada Lovelace")].filter
          (fun p => (lookupV adaModel.virtuals p.1).isNone))
        (extendKV []
          (virtualWrites adaModel.virtuals
            [("fullName", Val.str "Ada Lovelace")]))) "fullName" = none := by
  have h := save_patch_sanitizes 0 adaModel
    [("fullName", Val.str "Ada Lovelace")] ⟨true, none⟩ adaModel_plain rfl rfl
  constructor
  · rw [congrArg Res.events h.1]
    decide
  · exact h.2.2 "fullName" (by decide)

/-! ### The error path of a patch save -/

theorem noSaveEvents_nil : noSaveEvents [] := by
  intro a o h
  cases h

theorem noSaveEvents_cons_setter (k : String) (v : Val) {l : List Event}
    (h : noSaveEvents l) : noSaveEvents (Event.setterInvoked k v :: l) := by
  intro a o hm
  rcases List.mem_cons.mp hm with he | he
  · cases he
  · exact h a o he

theorem noSaveEvents_single_set (k : String) (v : Val) :
    noSaveEvents [Event.protoSetSingle k v] := by
  intro a o h
  simp at h

theorem noSaveEvents_append {l1 l2 : List Event} (h1 : noSaveEvents l1)
    (h2 : noSaveEvents l2) : noSaveEvents (l1 ++ l2) := by
  intro a o hm
  rcases List.mem_append.mp hm with h | h
  · exact h1 a o h
  · exact h2 a o h

theorem setKV_noSave (fuel : Nat)
    (hA : ∀ m v k, noSaveEvents (setVirtualFn fuel m v k).1.events) :
    ∀ m k v, noSaveEvents (setKV fuel m k v).events := by
  intro m k v
  by_cases h2 : (setVirtualFn fuel m v k).2 = true
  · rw [setKV_virtual fuel m k v h2]
    exact hA m v k
  · have : setKV fuel m k v =
        ⟨applyWrite m k v, [Event.protoSetSingle k v], none⟩ := by
      simp [setKV, h2]
    rw [this]
    exact noSaveEvents_single_set k v

theorem runActions_noSave (fuel : Nat)
    (hC : ∀ m k v, noSaveEvents (setKV fuel m k v).events) :
    ∀ (actions : List SetterAction) (m : Model),
      noSaveEvents (runActions fuel m actions).events := by
  intro actions
  induction actions with
  | nil =>
      intro m
      simp only [runActions]
      exact noSaveEvents_nil
  | cons a rest ih =>
      intro m
      cases a with
      | throwErr e =>
          simp only [runActions]
          exact noSaveEvents_nil
      | setCall k v =>
          simp only [runActions]
          cases he : (setKV fuel m k v).err with
          | some e => exact hC m k v
          | none => exact noSaveEvents_append (hC m k v) (ih _)

theorem omitVirtuals_noSave (fuel : Nat)
    (hA : ∀ m v k, noSaveEvents (setVirtualFn fuel m v k).1.events) :
    ∀ (kvs : AList) (m : Model),
      noSaveEvents (omitVirtuals fuel m kvs).1.events := by
  intro kvs
  induction kvs with
  | nil =>
      intro m
      simp only [omitVirtuals]
      exact noSaveEvents_nil
  | cons p rest ih =>
      intro m
      obtain ⟨k, v⟩ := p
      simp only [omitVirtuals]
      cases he : (setVirtualFn fuel m v k).1.err with
      | some e => exact hA m v k
      | none => exact noSaveEvents_append (hA m v k) (ih _)

theorem noSave_all (fuel : Nat) :
    (∀ m v k, noSaveEvents (setVirtualFn fuel m v k).1.events) ∧
    (∀ m k v, noSaveEvents (setKV fuel m k v).events) ∧
    (∀ (actions : List SetterAction) (m : Model),
      noSaveEvents (runActions fuel m actions).events) ∧
    (∀ (kvs : AList) (m : Model),
      noSaveEvents (omitVirtuals fuel m kvs).1.events) := by
  induction fuel with
  | zero =>
      have hA : ∀ m v k, noSaveEvents (setVirtualFn 0 m v k).1.events := by
        intro m v k
        cases h1 : lookupV m.virtuals k with
        | none =>
            rw [setVirtualFn_nonvirtual 0 m v k h1]
            exact noSaveEvents_nil
        | some vd =>
            cases h2 : vd.setter with
            | none =>
                rw [setVirtualFn_no_setter 0 m v k vd h1 h2]
                exact noSaveEvents_nil
            | some f =>
                simp only [setVirtualFn, h1, h2]
                exact noSaveEvents_cons_setter k v noSaveEvents_nil
      exact ⟨hA, setKV_noSave 0 hA,
        runActions_noSave 0 (setKV_noSave 0 hA), omitVirtuals_noSave 0 hA⟩
  | succ n ih =>
      have hA : ∀ m v k, noSaveEvents (setVirtualFn (n + 1) m v k).1.events := by
        intro m v k
        cases h1 : lookupV m.virtuals k with
        | none =>
            rw [setVirtualFn_nonvirtual (n + 1) m v k h1]
            exact noSaveEvents_nil
        | some vd =>
            cases h2 : vd.setter with
            | none =>
                rw [setVirtualFn_no_setter (n + 1) m v k vd h1 h2]
                exact noSaveEvents_nil
            | some f =>
                rw [setVirtualFn_setter n m v k vd f h1 h2]
                exact noSaveEvents_cons_setter k v (ih.2.2.1 (f v) m)
      exact ⟨hA, setKV_noSave (n + 1) hA,
        runActions_noSave (n + 1) (setKV_noSave (n + 1) hA),
        omitVirtuals_noSave (n + 1) hA⟩

/-- A save of an empty attribute bag never errors: the patch loop has nothing
to process, so the base `save` is reached directly. -/
theorem modelSave_empty_bag_err (fuel : Nat) (m : Model) (opts : SaveOptions) :
    (modelSave fuel m (SaveArg.bag [] (some opts))).err = none := by
  simp only [modelSave, normalizeSaveArgs, Option.getD_some]
  split
  · simp [omitVirtuals]
  · rfl

/-- C3: when a virtual setter throws during a patch-save, the save's outcome
is a failure carrying the original error, the base `save` is never invoked,
the patch buffer is released on this exit path as well, and a subsequent
save call on the same instance proceeds with no residual buffer state and no
error. -/
theorem save_patch_setter_error (fuel : Nat) (m : Model) (kvs : AList)
    (opts : SaveOptions) (e : Err) (hpatch : opts.patch = true)
    (hmeth : saveMethod m opts = Method.update)
    (herr : (omitVirtuals fuel { m with patchAttributes := some ([] : AList) }
        kvs).1.err = some e) :
    ((modelSave fuel m (SaveArg.bag kvs (some opts))).err = some e) ∧
    ((modelSave fuel m (SaveArg.bag kvs (some opts))).model.patchAttributes
        = none) ∧
    (∀ a o, Event.protoSaveCall a o ∉
      (modelSave fuel m (SaveArg.bag kvs (some opts))).events) ∧
    (∀ fuel2 opts2,
      (modelSave fuel2 (modelSave fuel m (SaveArg.bag kvs (some opts))).model
        (SaveArg.bag [] (some opts2))).err = none) := by
  have hsave : modelSave fuel m (SaveArg.bag kvs (some opts)) =
      ⟨{ (omitVirtuals fuel { m with patchAttributes := some ([] : AList) }
            kvs).1.model with patchAttributes := none },
       (omitVirtuals fuel { m with patchAttributes := some ([] : AList) }
          kvs).1.events,
       some e⟩ := by
    simp only [modelSave, normalizeSaveArgs, Option.getD_some, hmeth, hpatch,
      and_self, if_pos, herr]
  refine ⟨by rw [hsave], by rw [hsave], ?_, ?_⟩
  · rw [hsave]
    exact (noSave_all fuel).2.2.2 kvs _
  · intro fuel2 opts2
    exact modelSave_empty_bag_err fuel2 _ opts2

/-- C3 witness: on `cm3` the patch-save of `{boom: 5}` fails with the
setter's error, calls no base `save`, releases the buffer, and an immediate
follow-up save on the resulting instance succeeds. -/
theorem save_patch_setter_error_witness :
    ((modelSave 1 cm3 (SaveArg.bag [("boom", Val.num 5)]
        (some ⟨true, none⟩))).err = some "setter failed") ∧
    ((modelSave 1 cm3 (SaveArg.bag [("boom", Val.num 5)]
        (some ⟨true, none⟩))).model.patchAttributes = none) ∧
    (∀ a o, Event.protoSaveCall a o ∉
      (modelSave 1 cm3 (SaveArg.bag [("boom", Val.num 5)]
        (some ⟨true, none⟩))).events) ∧
    ((modelSave 1 (modelSave 1 cm3 (SaveArg.bag [("boom", Val.num 5)]
        (some ⟨true, none⟩))).model
      (SaveArg.bag [] (some ⟨true, none⟩))).err = none) := by
  have h := save_patch_setter_error 1 cm3 [("boom", Val.num 5)] ⟨true, none⟩
    "setter failed" rfl rfl
    (by simp [omitVirtuals, setVirtualFn, cm3, lookupV, VirtualDef.setter,
      runActions])
  exact ⟨h.1, h.2.1, h.2.2.1, h.2.2.2 1 ⟨true, none⟩⟩

/-! ### The mixed-in lodash proxies -/

theorem lookupV_pickList (l : AList) (names : List String) (k : String) :
    lookupV (names.filterMap
        (fun k' => (lookupV l k').map (fun v => (k', v)))) k =
      if k ∈ names then lookupV l k else none := by
  induction names with
  | nil => simp [lookupV]
  | cons n rest ih =>
      simp only [List.filterMap_cons]
      cases hl : lookupV l n with
      | none =>
          by_cases hn : n = k
          · subst hn
            simp [ih, hl]
          · simp only [Option.map_none']
            rw [ih]
            simp [Ne.symm hn]
      | some v =>
          by_cases hn : n = k
          · subst hn
            simp [lookupV, hl]
          · simp only [Option.map_some']
            show lookupV ((n, v) :: _) k = _
            simp only [lookupV]
            rw [if_neg hn, ih]
            simp [Ne.symm hn]

theorem lookupV_filter_omit (l : AList) (names : List String) (k : String)
    (hk : k ∈ names) :
    lookupV (l.filter (fun p => decide (p.1 ∉ names))) k = none := by
  induction l with
  | nil => rfl
  | cons p rest ih =>
      by_cases hp : p.1 ∈ names
      · simp only [List.filter_cons]
        rw [show (decide (p.1 ∉ names)) = false by simp [hp]]
        exact ih
      · simp only [List.filter_cons]
        rw [show (decide (p.1 ∉ names)) = true by simp [hp]]
        have hne : p.1 ≠ k := fun h => hp (h ▸ hk)
        simp only [lookupV]
        rw [if_neg hne]
        exact ih

theorem keys_getVirtualsFn (m : Model) (params : Option AList) :
    (getVirtualsFn m params).map Prod.fst = m.virtuals.map Prod.fst := by
  simp [getVirtualsFn, List.map_map]

/-- C10: the mixed-in `keys`, `values`, `toPairs`, `invert`, `pick` and
`omit` all operate on the real attribute set merged with the computed value
of every registered virtual (virtual values overwriting real attributes of
the same name): `keys` returns the union of real and virtual names,
`toPairs` looks a virtual name up to its getter's value, `values` are the
merged pairs' values, `pick`/`omit` select from the merged mapping, and
`invert` inverts it. -/
theorem lodash_methods_merged (m : Model)
    (hnd : (m.virtuals.map Prod.fst).Nodup) :
    (∀ k, k ∈ modelKeys m ↔
      (k ∈ m.attributes.map Prod.fst ∨ k ∈ m.virtuals.map Prod.fst)) ∧
    (∀ k vd, lookupV m.virtuals k = some vd →
      lookupV (modelToPairs m) k =
        some (vd.getter m.attributes [Val.undef])) ∧
    (modelValues m = (modelToPairs m).map Prod.snd) ∧
    (∀ names k, k ∈ names →
      lookupV (modelPick m names) k = lookupV (modelToPairs m) k) ∧
    (∀ names k, k ∈ names → lookupV (modelOmit m names) k = none) ∧
    (modelInvert m = ((modelToPairs m).map (fun p => (p.2, p.1))).foldl
      (fun acc p => insertInv acc p.1 p.2) []) := by
  refine ⟨?_, ?_, rfl, ?_, ?_, rfl⟩
  · intro k
    show k ∈ (mergedAttrs m).map Prod.fst ↔ _
    rw [mergedAttrs, mem_keys_extendKV, mem_keys_extendKV, keys_getVirtualsFn]
    simp
  · intro k vd hvd
    show lookupV (mergedAttrs m) k = _
    rw [mergedAttrs, lookupV_extendKV _ _ _ (by rw [keys_getVirtualsFn]; exact hnd)]
    have hlv : lookupV (getVirtualsFn m none) k =
        some (vd.getter m.attributes [Val.undef]) := by
      show lookupV (m.virtuals.map _) k = _
      rw [lookupV_virtualsMap m.virtuals m.attributes none k, hvd]
      rfl
    rw [hlv]
  · intro names k hk
    show lookupV (names.filterMap _) k = _
    rw [lookupV_pickList (mergedAttrs m) names k, if_pos hk]
    rfl
  · intro names k hk
    exact lookupV_filter_omit (mergedAttrs m) names k hk

/-- C10 witness: on `cm10` the merged proxies see the union of names, the
virtual value overwriting the real `v`, and `omit` removing a requested
key. -/
theorem lodash_methods_merged_witness :
    ("a" ∈ modelKeys cm10 ↔
      ("a" ∈ cm10.attributes.map Prod.fst ∨
       "a" ∈ cm10.virtuals.map Prod.fst)) ∧
    lookupV (modelToPairs cm10) "v" = some (Val.num 9) ∧
    lookupV (modelOmit cm10 ["a"]) "a" = none := by
  have h := lodash_methods_merged cm10 (by decide)
  exact ⟨h.1 "a",
    h.2.1 "v" (VirtualDef.fn (fun _ _ => Val.num 9)) rfl,
    h.2.2.2.2.1 ["a"] "a" (by decide)⟩

end Virtuals
